import Mathlib

/-!
Verification development for the tez CLI block-inspection core
(block reference resolution, head monitoring, operation classification
and per-block aggregation).  Go code is shallowly embedded: strings are
lists of characters, machine integers are `Int` (all arithmetic here is
far below the 64-bit range), `*big.Int`/`*big.Float` amounts are exact
`Int`/`Rat` values, nil pointers are `Option`, and fallible calls return
`Except` or `Option`.
-/

namespace Tez

/-- Byte-range test from the anchor scan in getBlock:
`c >= '0' && c <= '9' || c >= 'a' && c <= 'z' || c >= 'A' && c <= 'Z'`. -/
def isAlnumByte (c : Char) : Bool :=
  ('0' ≤ c && c ≤ '9') || ('a' ≤ c && c ≤ 'z') || ('A' ≤ c && c ≤ 'Z')

/-- Byte-range test `c >= '0' && c <= '9'`. -/
def isDigitByte (c : Char) : Bool :=
  '0' ≤ c && c ≤ '9'

/-- The anchor scan of getBlock: consume the longest leading run of
alphanumeric bytes, returning (anchor, remainder). -/
def takeAlnum : List Char → List Char × List Char
  | [] => ([], [])
  | c :: rest =>
    if isAlnumByte c then
      let p := takeAlnum rest
      (c :: p.1, p.2)
    else
      ([], c :: rest)

/-- The tilde scan of getBlock: consume the leading run of tildes,
returning (count, remainder). -/
def countTildes : List Char → Nat × List Char
  | [] => (0, [])
  | c :: rest =>
    if c = '~' then
      let p := countTildes rest
      (p.1 + 1, p.2)
    else
      (0, c :: rest)

/-- Accumulator loop of decimal parsing: all characters must be digits. -/
def digitsValCore (acc : Nat) : List Char → Option Nat
  | [] => some acc
  | c :: rest =>
    if isDigitByte c then
      digitsValCore (acc * 10 + (c.toNat - 48)) rest
    else
      none

/-- Decimal digit-string value; at least one digit is required. -/
def digitsVal (s : List Char) : Option Nat :=
  match s with
  | [] => none
  | _ => digitsValCore 0 s

/-- Embedding of strconv.ParseInt(s, 10, 32): optional sign, then a
non-empty digit run, range-checked against int32. -/
def parseInt32 (s : List Char) : Option Int :=
  match s with
  | [] => none
  | c :: rest =>
    let signed : Bool × List Char :=
      if c = '-' then (true, rest)
      else if c = '+' then (false, rest)
      else (false, s)
    match digitsVal signed.2 with
    | none => none
    | some n =>
      let v : Int := if signed.1 then -(n : Int) else (n : Int)
      if -2147483648 ≤ v ∧ v ≤ 2147483647 then some v else none

/-- The offset-specifier parser inside getBlock, applied to the query
remainder after the anchor.  An empty remainder means offset 0; a
leading tilde run sets sign to -1 and provisionally counts the tildes;
trailing characters are parsed as a signed decimal that replaces the
provisional magnitude; the final value is magnitude times sign. -/
def parseOffset (rest : List Char) : Option Int :=
  match rest with
  | [] => some 0
  | c :: _ =>
    let state : Int × Nat × List Char :=
      if c = '~' then
        let p := countTildes rest
        (-1, p.1, p.2)
      else
        (1, 0, rest)
    match state.2.2 with
    | [] => some ((state.2.1 : Int) * state.1)
    | tail =>
      match parseInt32 tail with
      | none => none
      | some v => some (v * state.1)

/-- Balance updates as used by the summary code: freezer updates carry a
category and a change, contract updates carry only a change. -/
inductive BalanceUpdate where
  | freezer (category : String) (change : Int)
  | contract (change : Int)
  deriving DecidableEq, Repr

/-- Endorsement operation metadata (delegate plus balance updates).  A
nil metadata pointer is modelled as metadata with an empty update list,
which contributes the same rewards. -/
structure EndorsementMeta where
  delegate : String
  balanceUpdates : List BalanceUpdate
  deriving DecidableEq, Repr

/-- The operation-content element taxonomy of the client library, with
exactly the fields the embedded functions read.  Optional amounts and
fees model nil big-integer pointers. -/
inductive OperationElem where
  | endorsement (meta : EndorsementMeta)
  | seedNonceRevelation
  | doubleEndorsementEvidence
  | doubleBakingEvidence
  | activateAccount (pkh : String) (balanceUpdates : List BalanceUpdate)
  | proposals (source : String)
  | ballot (source : String)
  | reveal (source : String) (fee : Option Int)
  | transaction (source : String) (destination : String)
      (amount : Option Int) (fee : Option Int)
  | origination (source : String) (delegate : String)
      (balance : Option Int) (fee : Option Int)
  | delegation (source : String) (delegate : String)
      (balance : Option Int) (fee : Option Int)
  deriving DecidableEq, Repr

namespace OperationElem

/-- OperationElemKind of the client library: the canonical kind tag. -/
def kind : OperationElem → String
  | endorsement _ => "endorsement"
  | seedNonceRevelation => "seed_nonce_revelation"
  | doubleEndorsementEvidence => "double_endorsement_evidence"
  | doubleBakingEvidence => "double_baking_evidence"
  | activateAccount _ _ => "activate_account"
  | proposals _ => "proposals"
  | ballot _ => "ballot"
  | reveal _ _ => "reveal"
  | transaction _ _ _ _ => "transaction"
  | origination _ _ _ _ => "origination"
  | delegation _ _ _ _ => "delegation"

/-- The OperationWithFee cast plus OperationFee(): only the four manager
operation kinds carry a fee pointer, which may itself be nil. -/
def operationFee : OperationElem → Option Int
  | reveal _ f => f
  | transaction _ _ _ f => f
  | origination _ _ _ f => f
  | delegation _ _ _ f => f
  | _ => none

end OperationElem

/-- An operation group: hash plus content elements. -/
structure Operation where
  hash : String
  contents : List OperationElem
  deriving DecidableEq, Repr

/-- A block as the embedded functions read it: header level and
predecessor, metadata balance updates, and the operation lists. -/
structure Block where
  hash : String
  level : Int
  predecessor : String
  balanceUpdates : List BalanceUpdate
  operations : List (List Operation)
  deriving DecidableEq, Repr

/-- xblock: a resolved block optionally enriched with its successor. -/
structure XBlock where
  block : Block
  successor : Option Block
  deriving DecidableEq, Repr

/-- One GetBlock call against the node, as recorded in a trace: either a
raw id string or a formatted decimal level. -/
inductive ServiceCall where
  | byId (id : List Char)
  | byLevel (level : Int)
  deriving DecidableEq, Repr

/-- The abstract node service: GetBlock keyed by a raw id string or by a
formatted decimal level. -/
structure NodeService where
  byId : List Char → Option Block
  byLevel : Int → Option Block

/-- Node well-formedness: a block fetched by level lives at that level. -/
def LevelConsistent (svc : NodeService) : Prop :=
  ∀ l b, svc.byLevel l = some b → b.level = l

/-- Core of getBlock: split the query into anchor and offset specifier,
then resolve.  An empty or digit-led anchor is parsed as a level (empty
means level 0) and the block at level + offset is fetched with one call;
a symbolic anchor is fetched by id, with a second fetch at the resolved
level + offset only when the offset is nonzero.  The returned trace
records every GetBlock call made. -/
def resolveBlock (svc : NodeService) (query : List Char) :
    Except String Block × List ServiceCall :=
  let p := takeAlnum query
  let id := p.1
  match parseOffset p.2 with
  | none => (Except.error "invalid offset", [])
  | some offset =>
    if (match id with
        | [] => true
        | c :: _ => isDigitByte c) then
      let levelOpt : Option Int :=
        match id with
        | [] => some 0
        | _ => parseInt32 id
      match levelOpt with
      | none => (Except.error "invalid level", [])
      | some level =>
        match svc.byLevel (level + offset) with
        | none =>
            (Except.error "block not found", [ServiceCall.byLevel (level + offset)])
        | some b => (Except.ok b, [ServiceCall.byLevel (level + offset)])
    else
      match svc.byId id with
      | none => (Except.error "block not found", [ServiceCall.byId id])
      | some b =>
        if offset ≠ 0 then
          match svc.byLevel (b.level + offset) with
          | none =>
              (Except.error "block not found",
               [ServiceCall.byId id, ServiceCall.byLevel (b.level + offset)])
          | some b2 =>
              (Except.ok b2,
               [ServiceCall.byId id, ServiceCall.byLevel (b.level + offset)])
        else
          (Except.ok b, [ServiceCall.byId id])

/-- getBlock: core resolution followed by the best-effort successor
stage; a failed successor fetch is ignored and leaves the field empty. -/
def getBlock (svc : NodeService) (query : List Char) (getSuccessor : Bool) :
    Except String XBlock × List ServiceCall :=
  match resolveBlock svc query with
  | (Except.error e, tr) => (Except.error e, tr)
  | (Except.ok b, tr) =>
    if getSuccessor then
      (Except.ok { block := b, successor := svc.byLevel (b.level + 1) },
       tr ++ [ServiceCall.byLevel (b.level + 1)])
    else
      (Except.ok { block := b, successor := none }, tr)

/-- A head notification from the monitor stream: hash and level. -/
structure HeadNotification where
  hash : String
  level : Int
  deriving DecidableEq, Repr

/-- The filter stage of the operations watch loop.  State starts at the
Go zero values (lastLevel 0, firstBlockReceived false); once a
notification has been accepted, any notification with level at most
lastLevel is skipped; an accepted notification updates lastLevel. -/
def opsAcceptLoop (lastLevel : Int) (firstBlockReceived : Bool) :
    List HeadNotification → List HeadNotification
  | [] => []
  | bi :: rest =>
    if firstBlockReceived ∧ bi.level ≤ lastLevel then
      opsAcceptLoop lastLevel firstBlockReceived rest
    else
      bi :: opsAcceptLoop bi.level true rest

/-- The notifications accepted by the operations watch filter stage. -/
def acceptedHeads (ns : List HeadNotification) : List HeadNotification :=
  opsAcceptLoop 0 false ns

/-- The block command watch loop body resolves and dispatches every
notification received from the monitor channel; it has no level filter,
so the dispatched levels are exactly the notification levels in order. -/
def blockWatchDispatchedLevels (ns : List HeadNotification) : List Int :=
  ns.map (fun bi => bi.level)

/-- Errors surfaced by the monitor subscription: the cancellation error
or a transport error. -/
inductive MonErr where
  | canceled
  | transport (msg : String)
  deriving DecidableEq, Repr

/-- monitorHeads: keep re-subscribing while MonitorHeads returns nil.
Run over a finite schedule of subscription outcomes (none meaning the
stream ended cleanly); the result is the first error, if any, together
with the number of subscribe calls made.  A none result means the
schedule was exhausted with the loop still re-subscribing. -/
def monitorRun : List (Option MonErr) → Option MonErr × Nat
  | [] => (none, 0)
  | outcome :: rest =>
    match outcome with
    | some e => (some e, 1)
    | none =>
      let p := monitorRun rest
      (p.1, p.2 + 1)

/-- End of the watch command: the monitor error is returned unless it is
nil or the cancellation error, in which case the command succeeds. -/
def watchFinish (monErr : Option MonErr) : Option MonErr :=
  if monErr ≠ none ∧ monErr ≠ some MonErr.canceled then monErr else none

/-- In-loop resolution failure handling of the watch commands: a
non-cancellation error is returned, a cancellation makes the command
return nil. -/
def watchResolveErr (e : MonErr) : Option MonErr :=
  if e ≠ MonErr.canceled then some e else none

/-- knownKinds: accepted aliases mapped to canonical kind names. -/
def knownKinds : List (String × String) :=
  [("endorsement", "endorsement"),
   ("end", "endorsement"),
   ("seed_nonce_revelation", "seed_nonce_revelation"),
   ("double_endorsement_evidence", "double_endorsement_evidence"),
   ("double_baking_evidence", "double_baking_evidence"),
   ("activate_account", "activate_account"),
   ("act", "activate_account"),
   ("proposals", "proposals"),
   ("prop", "proposals"),
   ("ballot", "ballot"),
   ("bal", "ballot"),
   ("reveal", "reveal"),
   ("rev", "reveal"),
   ("transaction", "transaction"),
   ("tx", "transaction"),
   ("origination", "origination"),
   ("orig", "origination"),
   ("delegation", "delegation"),
   ("del", "delegation")]

/-- operationTitles, with the Go map zero value for unknown keys. -/
def operationTitle (kind : String) : String :=
  (List.lookup kind
    [("endorsement", "Endorsement"),
     ("seed_nonce_revelation", "Nonce"),
     ("double_endorsement_evidence", "Double Endorsement Evidence"),
     ("double_baking_evidence", "Double Baking Evidence"),
     ("activate_account", "Activation"),
     ("proposals", "Proposals"),
     ("ballot", "Ballot"),
     ("reveal", "Reveal"),
     ("transaction", "Transaction"),
     ("origination", "Origination"),
     ("delegation", "Delegation")]).getD ""

/-- The kind-filter validation loop of the operations command, over the
alias list in order.  An unknown alias stops the loop with the
configuration error; the Go message interpolates the canonical name
looked up for the alias, which is the string zero value on failure, so
the message text is constant (quote punctuation elided here). -/
def validateKindsLoop : List String → Except String (List String)
  | [] => Except.ok []
  | kind :: rest =>
    match List.lookup kind knownKinds with
    | some k => (validateKindsLoop rest).map (fun ks => k :: ks)
    | none => Except.error "Unknown operation kind: "

/-- Kind-filter validation: an empty alias list leaves the allow-set
nil (no restriction); otherwise every alias must be known. -/
def validateKinds (opKinds : List String) : Except String (Option (List String)) :=
  match opKinds with
  | [] => Except.ok none
  | _ => (validateKindsLoop opKinds).map some

/-- Scaling from integer base units to the display unit: one exact
multiplication by 10^-6 (big.Float rounding is abstracted away). -/
def microScale (v : Int) : Rat :=
  (v : Rat) / 1000000

/-- Sum of contract balance-update changes, as accumulated by the
activate_account branch of getBlockOperations. -/
def sumContractChanges (updates : List BalanceUpdate) : Int :=
  updates.foldl
    (fun acc u =>
      match u with
      | BalanceUpdate.contract change => acc + change
      | _ => acc) 0

/-- A normalized operation record (opInfo).  The Go record holds a
non-owning pointer to the enclosing xblockInfo, whose aggregate part is
a pure function of the block, so the back-reference is kept here as the
block itself. -/
structure OpInfo where
  source : String
  kind : String
  title : String
  destination : String
  amount : Option Rat
  fee : Option Rat
  hash : String
  block : Block
  deriving DecidableEq, Repr

/-- Construction of one opInfo record from a content element: the
common fields, the OperationWithFee extraction, then the per-kind
switch of getBlockOperations. -/
def mkOpInfo (b : Block) (o : Operation) (c : OperationElem) : OpInfo :=
  let base : OpInfo :=
    { source := ""
      kind := c.kind
      title := operationTitle c.kind
      destination := ""
      amount := none
      fee := (c.operationFee).map microScale
      hash := o.hash
      block := b }
  match c with
  | OperationElem.endorsement meta => { base with source := meta.delegate }
  | OperationElem.transaction src dst amt _ =>
      { base with
        source := src
        destination := dst
        amount := amt.map microScale }
  | OperationElem.ballot src => { base with source := src }
  | OperationElem.proposals src => { base with source := src }
  | OperationElem.activateAccount pkh updates =>
      { base with
        source := pkh
        amount := some (microScale (sumContractChanges updates)) }
  | OperationElem.reveal src _ => { base with source := src }
  | OperationElem.origination src dlg bal _ =>
      { base with
        source := src
        destination := dlg
        amount := bal.map microScale }
  | OperationElem.delegation src dlg bal _ =>
      { base with
        source := src
        destination := dlg
        amount := bal.map microScale }
  | _ => base

/-- getBlockOperations: walk the operation lists and build a record per
content element, skipping elements whose kind is missing from a non-nil
allow-set (a nil allow-set keeps everything). -/
def getBlockOperations (b : Block) (opsFilter : Option (List String)) :
    List OpInfo :=
  (b.operations.map (fun ol =>
    (ol.map (fun o =>
      o.contents.filterMap (fun c =>
        if (match opsFilter with
            | none => true
            | some fs => fs.contains c.kind) then
          some (mkOpInfo b o c)
        else
          none))).flatten)).flatten

/-- All (operation group, content element) pairs of a block in traversal
order; the flattened view the classification walks. -/
def blockContentPairs (b : Block) : List (Operation × OperationElem) :=
  (b.operations.map (fun ol =>
    (ol.map (fun o => o.contents.map (fun c => (o, c)))).flatten)).flatten

/-- Accumulator of getBlockInfo: exact big.Float sums in base units plus
the running element count. -/
structure AggAcc where
  volumeI : Int
  feesI : Int
  operationsNum : Nat
  deriving DecidableEq, Repr

/-- The content-element body of the getBlockInfo loops: add the fee of a
fee-bearing element, then the amount of a transaction. -/
def aggContentStep (acc : AggAcc) (c : OperationElem) : AggAcc :=
  let acc :=
    match c.operationFee with
    | some f => { acc with feesI := acc.feesI + f }
    | none => acc
  match c with
  | OperationElem.transaction _ _ (some amt) _ =>
      { acc with volumeI := acc.volumeI + amt }
  | _ => acc

/-- The operation-group body of the getBlockInfo loops: count the
content elements, then fold over them. -/
def aggOpStep (acc : AggAcc) (o : Operation) : AggAcc :=
  o.contents.foldl aggContentStep
    { acc with operationsNum := acc.operationsNum + o.contents.length }

/-- The per-block summary of getBlockInfo (xblockInfo): operation count,
volume and fees, each sum scaled by 10^-6 once after summation. -/
structure XBlockInfo where
  volume : Rat
  fees : Rat
  operationsNum : Nat
  deriving DecidableEq, Repr

/-- getBlockInfo: fold the loops of the Go function, then apply the one
final scaling multiplication to each money total. -/
def getBlockInfo (b : Block) : XBlockInfo :=
  let acc :=
    b.operations.foldl (fun acc ol => ol.foldl aggOpStep acc)
      { volumeI := 0, feesI := 0, operationsNum := 0 }
  { volume := microScale acc.volumeI
    fees := microScale acc.feesI
    operationsNum := acc.operationsNum }

/-- Accumulator of the printBlocksSummaryText per-block computation. -/
structure SummaryAcc where
  volumeI : Int
  feesI : Int
  rewardsI : Int
  operationsNum : Nat
  deriving DecidableEq, Repr

/-- Rewards contribution of one balance update: the change of a freezer
update in the rewards category, nothing otherwise. -/
def rewardsChangeOf (u : BalanceUpdate) : Int :=
  match u with
  | BalanceUpdate.freezer cat change => if cat = "rewards" then change else 0
  | _ => 0

/-- The content-element body of the summary loops.  In the library
snapshot used by this code, transaction fee and amount are plain big
integers whose zero value stands for a missing field, modelled by
getD 0. -/
def summaryContentStep (acc : SummaryAcc) (c : OperationElem) : SummaryAcc :=
  match c with
  | OperationElem.transaction _ _ amt fee =>
      { acc with
        feesI := acc.feesI + fee.getD 0
        volumeI := acc.volumeI + amt.getD 0 }
  | OperationElem.endorsement meta =>
      { acc with
        rewardsI := meta.balanceUpdates.foldl
          (fun r u => r + rewardsChangeOf u) acc.rewardsI }
  | _ => acc

/-- The operation-group body of the summary loops. -/
def summaryOpStep (acc : SummaryAcc) (o : Operation) : SummaryAcc :=
  o.contents.foldl summaryContentStep
    { acc with operationsNum := acc.operationsNum + o.contents.length }

/-- The per-block summary record of printBlocksSummaryText. -/
structure BlockTplData where
  operationsNum : Nat
  volume : Rat
  fees : Rat
  rewards : Rat
  deriving DecidableEq, Repr

/-- The per-block computation of printBlocksSummaryText: rewards from
the block metadata, then the operation walk, then one final scaling
multiplication per money total. -/
def blocksSummaryData (b : Block) : BlockTplData :=
  let rewards0 : Int :=
    b.balanceUpdates.foldl (fun r u => r + rewardsChangeOf u) 0
  let acc :=
    b.operations.foldl (fun acc ol => ol.foldl summaryOpStep acc)
      { volumeI := 0, feesI := 0, rewardsI := rewards0, operationsNum := 0 }
  { operationsNum := acc.operationsNum
    volume := microScale acc.volumeI
    fees := microScale acc.feesI
    rewards := microScale acc.rewardsI }

/-- Spec-side fee term of one content element: its fee when fee-bearing,
zero otherwise. -/
def feeTermOf (c : OperationElem) : Int :=
  (c.operationFee).getD 0

/-- Spec-side volume term of one content element: the transferred amount
of a transaction, zero otherwise. -/
def volumeTermOf (c : OperationElem) : Int :=
  match c with
  | OperationElem.transaction _ _ amt _ => amt.getD 0
  | _ => 0

/-- Spec-side rewards nested in one content element: the rewards-category
changes of an endorsement metadata, zero otherwise. -/
def endorsementRewardsOf (c : OperationElem) : Int :=
  match c with
  | OperationElem.endorsement meta =>
      (meta.balanceUpdates.map rewardsChangeOf).sum
  | _ => 0

/-- Spec-side total rewards of a block: rewards-category changes on the
block metadata plus those nested in endorsement metadata. -/
def blockRewardsTotal (b : Block) : Int :=
  (b.balanceUpdates.map rewardsChangeOf).sum +
    ((blockContentPairs b).map (fun p => endorsementRewardsOf p.2)).sum

/-- getBlocks of the operations command: fetch each referenced block in
order with successor enrichment, stopping at the first failure, while
recording every node call. -/
def getBlocksTrace (svc : NodeService) :
    List (List Char) → Except String (List XBlock) × List ServiceCall
  | [] => (Except.ok [], [])
  | q :: rest =>
    match getBlock svc q true with
    | (Except.error e, tr) => (Except.error e, tr)
    | (Except.ok xb, tr) =>
      match getBlocksTrace svc rest with
      | (Except.error e, tr2) => (Except.error e, tr ++ tr2)
      | (Except.ok xbs, tr2) => (Except.ok (xb :: xbs), tr ++ tr2)

/-- The non-watch run of the operations command: default the argument
list to head, validate the kind filter, and only then fetch the blocks
and classify their operations.  The trace records every node call; a
validation failure returns before any call is made. -/
def operationsRun (svc : NodeService) (opKinds : List String)
    (args : List (List Char)) : Except String (List OpInfo) × List ServiceCall :=
  let args := if args = [] then [['h', 'e', 'a', 'd']] else args
  match validateKinds opKinds with
  | Except.error e => (Except.error e, [])
  | Except.ok kinds =>
    match getBlocksTrace svc args with
    | (Except.error e, tr) => (Except.error e, tr)
    | (Except.ok blocks, tr) =>
      (Except.ok (blocks.map (fun xb =>
        getBlockOperations xb.block kinds)).flatten, tr)

/-- A minimal block fixture at a given level. -/
def demoBlockAt (l : Int) : Block :=
  { hash := "blk"
    level := l
    predecessor := "pred"
    balanceUpdates := []
    operations := [] }

/-- The head query string as a character list. -/
def headChars : List Char :=
  ['h', 'e', 'a', 'd']

/-- A demo node whose head sits at level 100 and which serves every
non-negative level. -/
def demoSvc : NodeService :=
  { byId := fun id => if id = headChars then some (demoBlockAt 100) else none
    byLevel := fun l => if 0 ≤ l then some (demoBlockAt l) else none }

/-- A transaction element moving 1000000 base units for a 1000 fee. -/
def demoTransaction : OperationElem :=
  OperationElem.transaction "tz1src" "tz1dst" (some 1000000) (some 1000)

/-- An endorsement element with a 16000000 rewards balance update. -/
def demoEndorsement : OperationElem :=
  OperationElem.endorsement
    { delegate := "tz1deleg"
      balanceUpdates := [BalanceUpdate.freezer "rewards" 16000000] }

/-- A block holding one transaction and one endorsement. -/
def demoBlock : Block :=
  { hash := "blk1"
    level := 100
    predecessor := "blk0"
    balanceUpdates := [BalanceUpdate.freezer "rewards" 512]
    operations :=
      [[{ hash := "opT", contents := [demoTransaction] }],
       [{ hash := "opE", contents := [demoEndorsement] }]] }

theorem isDigitByte_ne_minus {c : Char} (h : isDigitByte c = true) : c ≠ '-' := by
  intro hc
  rw [hc] at h
  exact absurd h (by decide)

theorem isDigitByte_ne_plus {c : Char} (h : isDigitByte c = true) : c ≠ '+' := by
  intro hc
  rw [hc] at h
  exact absurd h (by decide)

theorem isDigitByte_ne_tilde {c : Char} (h : isDigitByte c = true) : c ≠ '~' := by
  intro hc
  rw [hc] at h
  exact absurd h (by decide)

theorem isAlnumByte_of_digit {c : Char} (h : isDigitByte c = true) :
    isAlnumByte c = true := by
  simp only [isDigitByte] at h
  simp [isAlnumByte, h]

theorem takeAlnum_append (a r : List Char)
    (ha : ∀ c ∈ a, isAlnumByte c = true)
    (hr : ∀ c t, r = c :: t → isAlnumByte c = false) :
    takeAlnum (a ++ r) = (a, r) := by
  induction a with
  | nil =>
    simp only [List.nil_append]
    match r with
    | [] => rfl
    | c :: t =>
      have := hr c t rfl
      simp [takeAlnum, this]
  | cons c a ih =>
    have hc : isAlnumByte c = true := ha c (List.mem_cons_self c a)
    have ih2 := ih (fun x hx => ha x (List.mem_cons_of_mem c hx))
    simp [takeAlnum, hc, ih2]

theorem countTildes_replicate_append (k : Nat) (r : List Char)
    (hr : ∀ c t, r = c :: t → c ≠ '~') :
    countTildes (List.replicate k '~' ++ r) = (k, r) := by
  induction k with
  | zero =>
    simp only [List.replicate, List.nil_append]
    match r with
    | [] => rfl
    | c :: t =>
      have := hr c t rfl
      simp [countTildes, this]
  | succ k ih =>
    simp [List.replicate_succ, countTildes, ih]

theorem digitsValCore_digits (l : List Char) :
    ∀ acc n, digitsValCore acc l = some n → ∀ c ∈ l, isDigitByte c = true := by
  induction l with
  | nil => intro acc n _ c hc; exact absurd hc (List.not_mem_nil c)
  | cons c t ih =>
    intro acc n h x hx
    by_cases hc : isDigitByte c = true
    · rcases List.mem_cons.mp hx with hx | hx
      · rw [hx]; exact hc
      · exact ih _ n (by simpa [digitsValCore, hc] using h) x hx
    · simp [digitsValCore, hc] at h

theorem digitsVal_head {ds : List Char} {n : Nat} (h : digitsVal ds = some n) :
    ∃ c t, ds = c :: t ∧ isDigitByte c = true := by
  match ds with
  | [] => simp [digitsVal] at h
  | c :: t =>
    refine ⟨c, t, rfl, ?_⟩
    exact digitsValCore_digits (c :: t) 0 n h c (List.mem_cons_self c t)

theorem digitsVal_all_digits {ds : List Char} {n : Nat} (h : digitsVal ds = some n) :
    ∀ c ∈ ds, isDigitByte c = true := by
  match ds with
  | [] => simp [digitsVal] at h
  | c :: t => exact digitsValCore_digits (c :: t) 0 n h

theorem parseInt32_digits {ds : List Char} {n : Nat}
    (h : digitsVal ds = some n) (hn : (n : Int) ≤ 2147483647) :
    parseInt32 ds = some (n : Int) := by
  obtain ⟨c, t, rfl, hc⟩ := digitsVal_head h
  have h1 := isDigitByte_ne_minus hc
  have h2 := isDigitByte_ne_plus hc
  simp only [parseInt32, h1, h2, if_false, h]
  have h3 : -2147483648 ≤ (n : Int) := le_trans (by decide) (Int.ofNat_nonneg n)
  simp [h, h3, hn]

theorem parseInt32_neg_digits {ds : List Char} {n : Nat}
    (h : digitsVal ds = some n) (hn : (n : Int) ≤ 2147483648) :
    parseInt32 ('-' :: ds) = some (-(n : Int)) := by
  have h3 : -2147483648 ≤ -(n : Int) := by omega
  have h4 : -(n : Int) ≤ 2147483647 :=
    le_trans (by omega : -(n : Int) ≤ 0) (by decide)
  simp only [parseInt32, if_pos rfl]
  simp [h, h3, h4, hn]
theorem parseOffset_tildes (k : Nat) :
    parseOffset (List.replicate (k + 1) '~') = some (-((k + 1 : Nat) : Int)) := by
  have hc := countTildes_replicate_append (k + 1) []
    (fun c t ht => absurd ht (List.cons_ne_nil c t).symm)
  rw [List.append_nil] at hc
  have hrep : List.replicate (k + 1) '~' = '~' :: List.replicate k '~' :=
    List.replicate_succ '~' k
  rw [hrep]
  rw [hrep] at hc
  simp only [parseOffset, if_pos rfl, hc]
  simp [mul_comm]

theorem parseOffset_tildes_digits (k : Nat) {ds : List Char} {n : Nat}
    (h : digitsVal ds = some n) (hn : (n : Int) ≤ 2147483647) :
    parseOffset (List.replicate (k + 1) '~' ++ ds) = some (-(n : Int)) := by
  obtain ⟨c, t, rfl, hc⟩ := digitsVal_head h
  have hne : ∀ x s, (c :: t : List Char) = x :: s → x ≠ '~' := by
    intro x s hx
    cases hx
    exact isDigitByte_ne_tilde hc
  have hct := countTildes_replicate_append (k + 1) (c :: t) hne
  have hpi := parseInt32_digits h hn
  rw [List.replicate_succ, List.cons_append]
  rw [List.replicate_succ, List.cons_append] at hct
  simp only [parseOffset, if_pos rfl, hct]
  simp [hpi]

theorem parseOffset_tildes_neg_digits (k : Nat) {ds : List Char} {n : Nat}
    (h : digitsVal ds = some n) (hn : (n : Int) ≤ 2147483648) :
    parseOffset (List.replicate (k + 1) '~' ++ '-' :: ds) = some (n : Int) := by
  have hne : ∀ x s, ('-' :: ds) = x :: s → x ≠ '~' := by
    intro x s hx
    cases hx
    decide
  have hct := countTildes_replicate_append (k + 1) ('-' :: ds) hne
  have hpi := parseInt32_neg_digits h hn
  rw [List.replicate_succ, List.cons_append]
  rw [List.replicate_succ, List.cons_append] at hct
  simp only [parseOffset, if_pos rfl, hct]
  simp [hpi]

theorem parseOffset_plain {c : Char} {t : List Char} {v : Int}
    (hc : c ≠ '~') (h : parseInt32 (c :: t) = some v) :
    parseOffset (c :: t) = some v := by
  simp [parseOffset, hc, h]


theorem digitsVal_all_alnum {ds : List Char} {n : Nat} (h : digitsVal ds = some n) :
    ∀ c ∈ ds, isAlnumByte c = true :=
  fun c hc => isAlnumByte_of_digit (digitsVal_all_digits h c hc)

theorem resolveBlock_empty_anchor (svc : NodeService) (rest : List Char) (off : Int)
    (hrest : ∀ c t, rest = c :: t → isAlnumByte c = false)
    (hoff : parseOffset rest = some off) :
    resolveBlock svc rest =
      match svc.byLevel (0 + off) with
      | none => (Except.error "block not found", [ServiceCall.byLevel (0 + off)])
      | some b => (Except.ok b, [ServiceCall.byLevel (0 + off)]) := by
  have hsplit : takeAlnum rest = ([], rest) := by
    have := takeAlnum_append [] rest (by intro c hc; exact absurd hc (List.not_mem_nil c)) hrest
    simpa using this
  simp only [resolveBlock, hsplit, hoff]
  simp

theorem resolveBlock_digit_anchor (svc : NodeService) (c : Char) (t rest : List Char)
    (off lvl : Int)
    (hid : ∀ x ∈ c :: t, isAlnumByte x = true)
    (hc : isDigitByte c = true)
    (hparse : parseInt32 (c :: t) = some lvl)
    (hrest : ∀ x s, rest = x :: s → isAlnumByte x = false)
    (hoff : parseOffset rest = some off) :
    resolveBlock svc ((c :: t) ++ rest) =
      match svc.byLevel (lvl + off) with
      | none => (Except.error "block not found", [ServiceCall.byLevel (lvl + off)])
      | some b => (Except.ok b, [ServiceCall.byLevel (lvl + off)]) := by
  have hsplit : takeAlnum ((c :: t) ++ rest) = (c :: t, rest) :=
    takeAlnum_append (c :: t) rest hid hrest
  simp only [resolveBlock, hsplit, hoff, hc, hparse]
  simp

theorem resolveBlock_symbolic (svc : NodeService) (ac : Char) (atl rest : List Char)
    (off : Int) (b : Block)
    (ha : ∀ c ∈ ac :: atl, isAlnumByte c = true)
    (hac : isDigitByte ac = false)
    (hrest : ∀ c t, rest = c :: t → isAlnumByte c = false)
    (hoff : parseOffset rest = some off)
    (hb : svc.byId (ac :: atl) = some b) :
    resolveBlock svc ((ac :: atl) ++ rest) =
      if off = 0 then (Except.ok b, [ServiceCall.byId (ac :: atl)])
      else
        match svc.byLevel (b.level + off) with
        | none => (Except.error "block not found",
            [ServiceCall.byId (ac :: atl), ServiceCall.byLevel (b.level + off)])
        | some b2 => (Except.ok b2,
            [ServiceCall.byId (ac :: atl), ServiceCall.byLevel (b.level + off)]) := by
  have hsplit : takeAlnum ((ac :: atl) ++ rest) = (ac :: atl, rest) :=
    takeAlnum_append (ac :: atl) rest ha hrest
  simp only [resolveBlock, hsplit, hoff, hac, hb]
  by_cases h0 : off = 0
  · simp [h0]
  · simp only [h0, if_false, ne_eq, not_false_iff, if_true]
    cases hbl : svc.byLevel (b.level + off) <;> simp


theorem resolveBlock_digits (svc : NodeService) {ds : List Char} {n : Nat}
    (h : digitsVal ds = some n) (hn : (n : Int) ≤ 2147483647) :
    resolveBlock svc ds =
      match svc.byLevel (n : Int) with
      | none => (Except.error "block not found", [ServiceCall.byLevel (n : Int)])
      | some b => (Except.ok b, [ServiceCall.byLevel (n : Int)]) := by
  obtain ⟨c, t, rfl, hc⟩ := digitsVal_head h
  have halnum := digitsVal_all_alnum h
  have hparse := parseInt32_digits h hn
  have key := resolveBlock_digit_anchor svc c t [] 0 (n : Int) halnum hc hparse
    (fun x s hx => absurd hx (List.cons_ne_nil x s).symm) rfl
  rw [List.append_nil] at key
  rw [key]
  norm_num

theorem demoSvc_levelConsistent : LevelConsistent demoSvc := by
  intro l b hb
  simp only [demoSvc] at hb
  by_cases h : (0 : Int) ≤ l
  · rw [if_pos h] at hb
    cases hb
    rfl
  · rw [if_neg h] at hb
    cases hb

/-- C1: for an offset specifier beginning with a tilde the sign is -1 and
the magnitude is the tilde count, replaced by the parsed decimal value
when digits follow; a specifier not beginning with a tilde keeps sign +1
and its parsed value.  Consequently a symbolic anchor followed by one
tilde and a digit string n resolves to the anchor level minus n, and a
symbolic anchor followed by three bare tildes resolves to the anchor
level minus 3. -/
theorem offset_tilde_grammar :
    (∀ k : Nat, parseOffset (List.replicate (k + 1) '~') =
        some (-((k + 1 : Nat) : Int))) ∧
    (∀ (k : Nat) (ds : List Char) (n : Nat),
        digitsVal ds = some n → (n : Int) ≤ 2147483647 →
        parseOffset (List.replicate (k + 1) '~' ++ ds) = some (-(n : Int))) ∧
    (∀ (c : Char) (t : List Char) (v : Int),
        c ≠ '~' → parseInt32 (c :: t) = some v →
        parseOffset (c :: t) = some v) ∧
    (∀ (svc : NodeService) (ac : Char) (atl ds : List Char) (n : Nat)
        (b b2 : Block),
        (∀ c ∈ ac :: atl, isAlnumByte c = true) → isDigitByte ac = false →
        digitsVal ds = some n → (n : Int) ≤ 2147483647 →
        svc.byId (ac :: atl) = some b → LevelConsistent svc →
        svc.byLevel (b.level - (n : Int)) = some b2 →
        (∃ r, (resolveBlock svc ((ac :: atl) ++ '~' :: ds)).1 = Except.ok r ∧
            r.level = b.level - (n : Int))) ∧
    (∀ (svc : NodeService) (ac : Char) (atl : List Char) (b b3 : Block),
        (∀ c ∈ ac :: atl, isAlnumByte c = true) → isDigitByte ac = false →
        svc.byId (ac :: atl) = some b → LevelConsistent svc →
        svc.byLevel (b.level - 3) = some b3 →
        ((resolveBlock svc ((ac :: atl) ++ List.replicate 3 '~')).1 =
            Except.ok b3 ∧ b3.level = b.level - 3)) := by
  refine ⟨parseOffset_tildes, fun k ds n h hn => parseOffset_tildes_digits k h hn,
    fun c t v hc h => parseOffset_plain hc h, ?_, ?_⟩
  · intro svc ac atl ds n b b2 ha hac hd hn hb hwf hb2
    have hoff : parseOffset ('~' :: ds) = some (-(n : Int)) := by
      have := parseOffset_tildes_digits 0 hd hn
      simpa using this
    have hrest : ∀ c t, ('~' :: ds : List Char) = c :: t → isAlnumByte c = false := by
      intro c t hx
      cases hx
      decide
    have hsym := resolveBlock_symbolic svc ac atl ('~' :: ds) (-(n : Int)) b
      ha hac hrest hoff hb
    by_cases h0 : (n : Int) = 0
    · rw [hsym]
      rw [if_pos (by omega)]
      exact ⟨b, rfl, by omega⟩
    · rw [hsym, if_neg (by omega)]
      have heq : b.level + -(n : Int) = b.level - (n : Int) := by omega
      rw [heq, hb2]
      exact ⟨b2, rfl, hwf _ _ hb2⟩
  · intro svc ac atl b b3 ha hac hb hwf hb3
    have hoff : parseOffset (List.replicate 3 '~') = some (-3) := by
      have := parseOffset_tildes 2
      norm_num at this
      exact this
    have hrest : ∀ c t, (List.replicate 3 '~' : List Char) = c :: t →
        isAlnumByte c = false := by
      intro c t hx
      have : c = '~' := by
        have h3 : (List.replicate 3 '~' : List Char) = '~' :: List.replicate 2 '~' := rfl
        rw [h3] at hx
        exact (List.cons.injEq _ _ _ _ ▸ hx).1.symm ▸ rfl
      rw [this]
      decide
    have hsym := resolveBlock_symbolic svc ac atl (List.replicate 3 '~') (-3) b
      ha hac hrest hoff hb
    rw [hsym, if_neg (by omega)]
    have heq : b.level + (-3 : Int) = b.level - 3 := by omega
    rw [heq, hb3]
    exact ⟨rfl, hwf _ _ hb3⟩


theorem offset_tilde_grammar_witness :
    (∃ r, (resolveBlock demoSvc (headChars ++ ['~', '3'])).1 = Except.ok r ∧
        r.level = (demoBlockAt 100).level - 3) ∧
    (resolveBlock demoSvc (headChars ++ List.replicate 3 '~')).1 =
      Except.ok (demoBlockAt 97) := by
  have h4 := offset_tilde_grammar.2.2.2.1 demoSvc 'h' ['e', 'a', 'd'] ['3'] 3
    (demoBlockAt 100) (demoBlockAt 97)
    (by decide) (by decide) (by rfl) (by decide) (by rfl) demoSvc_levelConsistent
    (by rfl)
  have h5 := offset_tilde_grammar.2.2.2.2 demoSvc 'h' ['e', 'a', 'd']
    (demoBlockAt 100) (demoBlockAt 97)
    (by decide) (by decide) (by rfl) demoSvc_levelConsistent (by rfl)
  exact ⟨by simpa using h4, by simpa using h5.1⟩


/-- C10: after one or more tildes, digits with an explicit leading minus
parse to a negative value that replaces the tilde count and is then
multiplied by the tilde sign -1, making the applied offset positive, so
the reference resolves forward to the anchor level plus n. -/
theorem negative_digits_forward_offset :
    (∀ (k : Nat) (ds : List Char) (n : Nat),
        digitsVal ds = some n → (n : Int) ≤ 2147483648 →
        parseOffset (List.replicate (k + 1) '~' ++ '-' :: ds) = some (n : Int)) ∧
    (∀ (svc : NodeService) (ac : Char) (atl ds : List Char) (n : Nat)
        (b b2 : Block),
        (∀ c ∈ ac :: atl, isAlnumByte c = true) → isDigitByte ac = false →
        digitsVal ds = some n → (n : Int) ≤ 2147483648 →
        svc.byId (ac :: atl) = some b → LevelConsistent svc →
        svc.byLevel (b.level + (n : Int)) = some b2 →
        (∃ r, (resolveBlock svc ((ac :: atl) ++ '~' :: '-' :: ds)).1 =
            Except.ok r ∧ r.level = b.level + (n : Int))) := by
  refine ⟨fun k ds n h hn => parseOffset_tildes_neg_digits k h hn, ?_⟩
  intro svc ac atl ds n b b2 ha hac hd hn hb hwf hb2
  have hoff : parseOffset ('~' :: '-' :: ds) = some (n : Int) := by
    have := parseOffset_tildes_neg_digits 0 hd hn
    simpa using this
  have hrest : ∀ c t, ('~' :: '-' :: ds : List Char) = c :: t →
      isAlnumByte c = false := by
    intro c t hx
    cases hx
    decide
  have hsym := resolveBlock_symbolic svc ac atl ('~' :: '-' :: ds) (n : Int) b
    ha hac hrest hoff hb
  by_cases h0 : (n : Int) = 0
  · rw [hsym, if_pos h0]
    exact ⟨b, rfl, by omega⟩
  · rw [hsym, if_neg h0, hb2]
    exact ⟨b2, rfl, hwf _ _ hb2⟩

theorem negative_digits_forward_offset_witness :
    parseOffset ['~', '-', '3'] = some 3 ∧
    (∃ r, (resolveBlock demoSvc (headChars ++ ['~', '-', '3'])).1 =
        Except.ok r ∧ r.level = (demoBlockAt 100).level + 3) := by
  have h1 := negative_digits_forward_offset.1 0 ['3'] 3 (by rfl) (by decide)
  have h2 := negative_digits_forward_offset.2 demoSvc 'h' ['e', 'a', 'd'] ['3'] 3
    (demoBlockAt 100) (demoBlockAt 103)
    (by decide) (by decide) (by rfl) (by decide) (by rfl) demoSvc_levelConsistent
    (by rfl)
  exact ⟨by simpa using h1, by simpa using h2⟩

/-- C4: an empty or digit-led anchor is parsed as a decimal level (empty
meaning level 0) and resolved with a single node lookup at level plus
offset, so a reference of bare level digits yields the block at that
level when it exists; a symbolic anchor is fetched by id first and a
second lookup at the resolved level plus offset happens exactly when the
offset is nonzero. -/
theorem anchor_resolution_lookups :
    (∀ (svc : NodeService) (ds : List Char) (n : Nat) (b : Block),
        digitsVal ds = some n → (n : Int) ≤ 2147483647 →
        svc.byLevel (n : Int) = some b →
        (resolveBlock svc ds = (Except.ok b, [ServiceCall.byLevel (n : Int)]) ∧
          (LevelConsistent svc → b.level = (n : Int)))) ∧
    (∀ (svc : NodeService) (rest : List Char) (off : Int),
        (∀ c t, rest = c :: t → isAlnumByte c = false) →
        parseOffset rest = some off →
        (resolveBlock svc rest).2 = [ServiceCall.byLevel (0 + off)]) ∧
    (∀ (svc : NodeService) (c : Char) (t rest : List Char) (off lvl : Int),
        (∀ x ∈ c :: t, isAlnumByte x = true) → isDigitByte c = true →
        parseInt32 (c :: t) = some lvl →
        (∀ x s, rest = x :: s → isAlnumByte x = false) →
        parseOffset rest = some off →
        (resolveBlock svc ((c :: t) ++ rest)).2 =
          [ServiceCall.byLevel (lvl + off)]) ∧
    (∀ (svc : NodeService) (ac : Char) (atl rest : List Char) (off : Int)
        (b : Block),
        (∀ c ∈ ac :: atl, isAlnumByte c = true) → isDigitByte ac = false →
        (∀ c s, rest = c :: s → isAlnumByte c = false) →
        parseOffset rest = some off →
        svc.byId (ac :: atl) = some b →
        ((off = 0 → resolveBlock svc ((ac :: atl) ++ rest) =
              (Except.ok b, [ServiceCall.byId (ac :: atl)])) ∧
          (off ≠ 0 → (resolveBlock svc ((ac :: atl) ++ rest)).2 =
              [ServiceCall.byId (ac :: atl),
               ServiceCall.byLevel (b.level + off)]))) := by
  refine ⟨?_, ?_, ?_, ?_⟩
  · intro svc ds n b hd hn hb
    have key := resolveBlock_digits svc hd hn
    rw [hb] at key
    refine ⟨key, fun hwf => hwf _ _ hb⟩
  · intro svc rest off hrest hoff
    have key := resolveBlock_empty_anchor svc rest off hrest hoff
    rw [key]
    cases svc.byLevel (0 + off) <;> rfl
  · intro svc c t rest off lvl hid hc hparse hrest hoff
    have key := resolveBlock_digit_anchor svc c t rest off lvl hid hc hparse hrest hoff
    rw [key]
    cases svc.byLevel (lvl + off) <;> rfl
  · intro svc ac atl rest off b ha hac hrest hoff hb
    have key := resolveBlock_symbolic svc ac atl rest off b ha hac hrest hoff hb
    constructor
    · intro h0
      rw [key, if_pos h0]
    · intro h0
      rw [key, if_neg h0]
      cases svc.byLevel (b.level + off) <;> rfl

theorem anchor_resolution_lookups_witness :
    resolveBlock demoSvc ['1', '2'] =
      (Except.ok (demoBlockAt 12), [ServiceCall.byLevel 12]) ∧
    (demoBlockAt 12).level = 12 ∧
    resolveBlock demoSvc headChars =
      (Except.ok (demoBlockAt 100), [ServiceCall.byId headChars]) ∧
    (resolveBlock demoSvc (headChars ++ ['~', '3'])).2 =
      [ServiceCall.byId headChars, ServiceCall.byLevel 97] := by
  have h1 := anchor_resolution_lookups.1 demoSvc ['1', '2'] 12 (demoBlockAt 12)
    (by rfl) (by decide) (by rfl)
  have h4 := anchor_resolution_lookups.2.2.2 demoSvc 'h' ['e', 'a', 'd'] [] 0
    (demoBlockAt 100) (by decide) (by decide)
    (fun c s hx => absurd hx (List.cons_ne_nil c s).symm) rfl (by rfl)
  have h5 := anchor_resolution_lookups.2.2.2 demoSvc 'h' ['e', 'a', 'd'] ['~', '3']
    (-3) (demoBlockAt 100) (by decide) (by decide)
    (by intro c s hx; cases hx; decide) (by decide) (by rfl)
  refine ⟨by simpa using h1.1, h1.2 demoSvc_levelConsistent, ?_, ?_⟩
  · have := h4.1 rfl
    simpa using this
  · have := h5.2 (by decide)
    simpa using this


/-- C5: once core resolution succeeds, the successor stage never fails
the call: the result carries whatever the level + 1 lookup returned,
absent on failure; and under a level-consistent node a present
successor sits exactly one level above the resolved block. -/
theorem successor_best_effort :
    ∀ (svc : NodeService) (query : List Char) (b : Block),
      (resolveBlock svc query).1 = Except.ok b →
      ((getBlock svc query true).1 =
          Except.ok { block := b, successor := svc.byLevel (b.level + 1) } ∧
        (LevelConsistent svc →
          ∀ s, svc.byLevel (b.level + 1) = some s → s.level = b.level + 1)) := by
  intro svc query b h
  rcases hres : resolveBlock svc query with ⟨r, tr⟩
  rw [hres] at h
  simp only at h
  subst h
  constructor
  · simp [getBlock, hres]
  · intro hwf s hs
    exact hwf _ _ hs

theorem successor_best_effort_witness :
    (getBlock demoSvc headChars true).1 =
      Except.ok { block := demoBlockAt 100, successor := some (demoBlockAt 101) } ∧
    (demoBlockAt 101).level = (demoBlockAt 100).level + 1 := by
  have h := successor_best_effort demoSvc headChars (demoBlockAt 100) (by rfl)
  refine ⟨by simpa using h.1, ?_⟩
  exact h.2 demoSvc_levelConsistent (demoBlockAt 101) (by rfl)


/-- C6: the monitor loop re-subscribes after every clean stream end and
stops at the first subscription error, which it returns; the watch
command maps a cancellation (from the monitor or from in-loop block
resolution) to a nil command error. -/
theorem monitor_resubscribe_and_cancellation :
    (∀ (n : Nat) (e : MonErr) (rest : List (Option MonErr)),
        monitorRun (List.replicate n none ++ some e :: rest) = (some e, n + 1)) ∧
    (∀ n : Nat, monitorRun (List.replicate n none) = (none, n)) ∧
    (∀ m : Option MonErr,
        watchFinish m = if m = some MonErr.canceled then none else m) ∧
    (∀ e : MonErr,
        watchResolveErr e = if e = MonErr.canceled then none else some e) := by
  refine ⟨?_, ?_, ?_, ?_⟩
  · intro n e rest
    induction n with
    | zero => rfl
    | succ n ih => simp [List.replicate_succ, monitorRun, ih]
  · intro n
    induction n with
    | zero => rfl
    | succ n ih => simp [List.replicate_succ, monitorRun, ih]
  · intro m
    match m with
    | none => rfl
    | some MonErr.canceled => rfl
    | some (MonErr.transport msg) => rfl
  · intro e
    match e with
    | MonErr.canceled => rfl
    | MonErr.transport msg => rfl

theorem monitor_resubscribe_and_cancellation_witness :
    monitorRun [none, none, some (MonErr.transport "eof")] =
      (some (MonErr.transport "eof"), 3) ∧
    watchFinish (some MonErr.canceled) = none ∧
    watchResolveErr MonErr.canceled = none := by
  have h1 := monitor_resubscribe_and_cancellation.1 2 (MonErr.transport "eof") []
  have h2 := monitor_resubscribe_and_cancellation.2.2.1 (some MonErr.canceled)
  have h3 := monitor_resubscribe_and_cancellation.2.2.2 MonErr.canceled
  refine ⟨by simpa using h1, by simpa using h2, by simpa using h3⟩

theorem opsAcceptLoop_chain (ns : List HeadNotification) :
    ∀ l : Int, List.Chain' (fun x y : Int => x < y)
      (l :: (opsAcceptLoop l true ns).map (fun bi => bi.level)) := by
  induction ns with
  | nil => intro l; simp [opsAcceptLoop]
  | cons bi rest ih =>
    intro l
    by_cases h : bi.level ≤ l
    · simpa [opsAcceptLoop, h] using ih l
    · have hchain := ih bi.level
      simp only [opsAcceptLoop, h, and_false, if_false, true_and, and_true]
      simp only [List.map_cons]
      exact List.Chain'.cons (by omega) hchain

/-- C2 (amended): in the operations command watch mode the first
notification is always accepted, a later notification is accepted
exactly when its level exceeds the last accepted level, and the accepted
levels are strictly increasing; the block command watch mode has no such
filter and dispatches every notification. -/
theorem ops_watch_filter_monotone :
    (∀ (bi : HeadNotification) (rest : List HeadNotification),
        acceptedHeads (bi :: rest) = bi :: opsAcceptLoop bi.level true rest) ∧
    (∀ (l : Int) (bi : HeadNotification) (rest : List HeadNotification),
        opsAcceptLoop l true (bi :: rest) =
          if bi.level ≤ l then opsAcceptLoop l true rest
          else bi :: opsAcceptLoop bi.level true rest) ∧
    (∀ ns : List HeadNotification,
        List.Chain' (fun x y : Int => x < y)
          ((acceptedHeads ns).map (fun bi => bi.level))) := by
  refine ⟨?_, ?_, ?_⟩
  · intro bi rest
    simp [acceptedHeads, opsAcceptLoop]
  · intro l bi rest
    by_cases h : bi.level ≤ l <;> simp [opsAcceptLoop, h]
  · intro ns
    match ns with
    | [] => simp [acceptedHeads, opsAcceptLoop]
    | bi :: rest =>
      have h1 : acceptedHeads (bi :: rest) = bi :: opsAcceptLoop bi.level true rest := by
        simp [acceptedHeads, opsAcceptLoop]
      rw [h1, List.map_cons]
      exact opsAcceptLoop_chain rest bi.level

/-- C2 counterexample: the block command watch loop dispatches duplicate
levels, so its dispatched level sequence is not strictly increasing
after the first element. -/
theorem block_watch_unfiltered_cex :
    blockWatchDispatchedLevels
        [{ hash := "h1", level := 5 }, { hash := "h2", level := 5 }] = [5, 5] ∧
    ¬ List.Chain' (fun x y : Int => x < y)
        (blockWatchDispatchedLevels
          [{ hash := "h1", level := 5 }, { hash := "h2", level := 5 }]) := by
  refine ⟨rfl, ?_⟩
  intro h
  simp [blockWatchDispatchedLevels] at h


/-- C9: a record's amount is absent for every kind that carries no
transferred value (and for manager kinds whose balance field is nil),
and the fee field is exactly the scaled fee the element carries, hence
absent whenever the element has none. -/
theorem absent_amount_fee_fields :
    (∀ (b : Block) (o : Operation) (meta : EndorsementMeta),
        (mkOpInfo b o (OperationElem.endorsement meta)).amount = none) ∧
    (∀ (b : Block) (o : Operation),
        (mkOpInfo b o OperationElem.seedNonceRevelation).amount = none) ∧
    (∀ (b : Block) (o : Operation),
        (mkOpInfo b o OperationElem.doubleEndorsementEvidence).amount = none) ∧
    (∀ (b : Block) (o : Operation),
        (mkOpInfo b o OperationElem.doubleBakingEvidence).amount = none) ∧
    (∀ (b : Block) (o : Operation) (src : String),
        (mkOpInfo b o (OperationElem.proposals src)).amount = none) ∧
    (∀ (b : Block) (o : Operation) (src : String),
        (mkOpInfo b o (OperationElem.ballot src)).amount = none) ∧
    (∀ (b : Block) (o : Operation) (src : String) (fee : Option Int),
        (mkOpInfo b o (OperationElem.reveal src fee)).amount = none) ∧
    (∀ (b : Block) (o : Operation) (src dst : String) (fee : Option Int),
        (mkOpInfo b o
          (OperationElem.transaction src dst none fee)).amount = none) ∧
    (∀ (b : Block) (o : Operation) (src dlg : String) (fee : Option Int),
        (mkOpInfo b o
          (OperationElem.origination src dlg none fee)).amount = none) ∧
    (∀ (b : Block) (o : Operation) (src dlg : String) (fee : Option Int),
        (mkOpInfo b o
          (OperationElem.delegation src dlg none fee)).amount = none) ∧
    (∀ (b : Block) (o : Operation) (c : OperationElem),
        (mkOpInfo b o c).fee = (c.operationFee).map microScale) := by
  refine ⟨fun b o meta => rfl, fun b o => rfl, fun b o => rfl, fun b o => rfl,
    fun b o src => rfl, fun b o src => rfl, fun b o src fee => rfl,
    fun b o src dst fee => rfl, fun b o src dlg fee => rfl,
    fun b o src dlg fee => rfl, ?_⟩
  intro b o c
  cases c <;> rfl


theorem filterMap_ite_eq_filter_map {α β : Type} (l : List α) (p : α → Bool)
    (f : α → β) :
    l.filterMap (fun a => if p a then some (f a) else none) =
      (l.filter p).map f := by
  induction l with
  | nil => rfl
  | cons a t ih =>
    by_cases h : p a <;> simp [List.filterMap_cons, List.filter_cons, h, ih]

theorem filterMap_some_eq_map {α β : Type} (l : List α) (f : α → β) :
    l.filterMap (fun a => some (f a)) = l.map f := by
  induction l with
  | nil => rfl
  | cons a t ih => simp [List.filterMap_cons, ih]

theorem flatten_filterMap_structure (g : Operation × OperationElem → Option OpInfo)
    (h : Operation → OperationElem → Option OpInfo)
    (hg : ∀ o c, h o c = g (o, c)) (L : List (List Operation)) :
    (L.map (fun ol => (ol.map (fun o => o.contents.filterMap (h o))).flatten)).flatten
      = ((L.map (fun ol =>
          (ol.map (fun o =>
            o.contents.map (fun c => (o, c)))).flatten)).flatten).filterMap g := by
  induction L with
  | nil => rfl
  | cons ol rest ih =>
    simp only [List.map_cons, List.flatten_cons, List.filterMap_append, ih]
    congr 1
    induction ol with
    | nil => rfl
    | cons o os iho =>
      simp only [List.map_cons, List.flatten_cons, List.filterMap_append, iho]
      congr 1
      rw [List.filterMap_map]
      congr 1
      funext c
      exact hg o c

theorem getBlockOperations_eq (b : Block) (f : Option (List String)) :
    getBlockOperations b f = (blockContentPairs b).filterMap (fun p =>
      if (match f with
          | none => true
          | some fs => fs.contains p.2.kind) then
        some (mkOpInfo b p.1 p.2)
      else none) := by
  unfold getBlockOperations blockContentPairs
  exact flatten_filterMap_structure
    (fun p =>
      if (match f with
          | none => true
          | some fs => fs.contains p.2.kind) then
        some (mkOpInfo b p.1 p.2)
      else none)
    (fun o c =>
      if (match f with
          | none => true
          | some fs => fs.contains c.kind) then
        some (mkOpInfo b o c)
      else none)
    (fun o c => rfl) b.operations

/-- C8: with a non-nil allow-set the operation listing is exactly the
records of the content elements whose kind is in the set, in traversal
order; a nil allow-set lists every content element.  On the example
block with one transaction and one endorsement, the transaction and
delegation allow-set yields exactly the transaction record, while the
nil allow-set yields both records. -/
theorem allow_set_filtering :
    (∀ (b : Block) (fs : List String),
        getBlockOperations b (some fs) =
          ((blockContentPairs b).filter (fun p => fs.contains p.2.kind)).map
            (fun p => mkOpInfo b p.1 p.2)) ∧
    (∀ b : Block,
        getBlockOperations b none =
          (blockContentPairs b).map (fun p => mkOpInfo b p.1 p.2)) ∧
    (getBlockOperations demoBlock (some ["transaction", "delegation"])).map
        (fun r => r.kind) = ["transaction"] ∧
    (getBlockOperations demoBlock (some ["transaction", "delegation"])).length = 1 ∧
    (getBlockOperations demoBlock none).map (fun r => r.kind) =
      ["transaction", "endorsement"] := by
  refine ⟨?_, ?_, by rfl, by rfl, by rfl⟩
  · intro b fs
    rw [getBlockOperations_eq]
    exact filterMap_ite_eq_filter_map _ _ _
  · intro b
    rw [getBlockOperations_eq]
    exact filterMap_some_eq_map _ _


theorem foldl_add_sum {α : Type} (f : α → Int) (l : List α) (r : Int) :
    l.foldl (fun acc u => acc + f u) r = r + (l.map f).sum := by
  induction l generalizing r with
  | nil => simp
  | cons a t ih => simp [List.foldl_cons, ih, add_assoc]

theorem aggContentStep_volumeI (acc : AggAcc) (c : OperationElem) :
    (aggContentStep acc c).volumeI = acc.volumeI + volumeTermOf c := by
  cases c with
  | transaction src dst amt fee =>
    cases amt <;> cases fee <;> simp [aggContentStep, volumeTermOf,
      OperationElem.operationFee]
  | reveal src fee =>
    cases fee <;> simp [aggContentStep, volumeTermOf, OperationElem.operationFee]
  | origination src dlg bal fee =>
    cases fee <;> simp [aggContentStep, volumeTermOf, OperationElem.operationFee]
  | delegation src dlg bal fee =>
    cases fee <;> simp [aggContentStep, volumeTermOf, OperationElem.operationFee]
  | _ => simp [aggContentStep, volumeTermOf, OperationElem.operationFee]

theorem aggContentStep_feesI (acc : AggAcc) (c : OperationElem) :
    (aggContentStep acc c).feesI = acc.feesI + feeTermOf c := by
  cases c with
  | transaction src dst amt fee =>
    cases amt <;> cases fee <;> simp [aggContentStep, feeTermOf,
      OperationElem.operationFee]
  | reveal src fee =>
    cases fee <;> simp [aggContentStep, feeTermOf, OperationElem.operationFee]
  | origination src dlg bal fee =>
    cases fee <;> simp [aggContentStep, feeTermOf, OperationElem.operationFee]
  | delegation src dlg bal fee =>
    cases fee <;> simp [aggContentStep, feeTermOf, OperationElem.operationFee]
  | _ => simp [aggContentStep, feeTermOf, OperationElem.operationFee]

theorem aggContentStep_operationsNum (acc : AggAcc) (c : OperationElem) :
    (aggContentStep acc c).operationsNum = acc.operationsNum := by
  cases c with
  | transaction src dst amt fee =>
    cases amt <;> cases fee <;> simp [aggContentStep, OperationElem.operationFee]
  | reveal src fee =>
    cases fee <;> simp [aggContentStep, OperationElem.operationFee]
  | origination src dlg bal fee =>
    cases fee <;> simp [aggContentStep, OperationElem.operationFee]
  | delegation src dlg bal fee =>
    cases fee <;> simp [aggContentStep, OperationElem.operationFee]
  | _ => simp [aggContentStep, OperationElem.operationFee]

theorem foldl_aggContent_volumeI (cs : List OperationElem) (acc : AggAcc) :
    (cs.foldl aggContentStep acc).volumeI =
      acc.volumeI + (cs.map volumeTermOf).sum := by
  induction cs generalizing acc with
  | nil => simp
  | cons c t ih =>
    simp [List.foldl_cons, ih, aggContentStep_volumeI, add_assoc]

theorem foldl_aggContent_feesI (cs : List OperationElem) (acc : AggAcc) :
    (cs.foldl aggContentStep acc).feesI = acc.feesI + (cs.map feeTermOf).sum := by
  induction cs generalizing acc with
  | nil => simp
  | cons c t ih =>
    simp [List.foldl_cons, ih, aggContentStep_feesI, add_assoc]

theorem foldl_aggContent_operationsNum (cs : List OperationElem) (acc : AggAcc) :
    (cs.foldl aggContentStep acc).operationsNum = acc.operationsNum := by
  induction cs generalizing acc with
  | nil => rfl
  | cons c t ih =>
    simp [List.foldl_cons, ih, aggContentStep_operationsNum]

theorem foldl_aggOp_volumeI (ol : List Operation) (acc : AggAcc) :
    (ol.foldl aggOpStep acc).volumeI =
      acc.volumeI + (ol.map (fun o => (o.contents.map volumeTermOf).sum)).sum := by
  induction ol generalizing acc with
  | nil => simp
  | cons o os ih =>
    simp [List.foldl_cons, ih, aggOpStep, foldl_aggContent_volumeI, add_assoc]

theorem foldl_aggOp_feesI (ol : List Operation) (acc : AggAcc) :
    (ol.foldl aggOpStep acc).feesI =
      acc.feesI + (ol.map (fun o => (o.contents.map feeTermOf).sum)).sum := by
  induction ol generalizing acc with
  | nil => simp
  | cons o os ih =>
    simp [List.foldl_cons, ih, aggOpStep, foldl_aggContent_feesI, add_assoc]

theorem foldl_aggOp_operationsNum (ol : List Operation) (acc : AggAcc) :
    (ol.foldl aggOpStep acc).operationsNum =
      acc.operationsNum + (ol.map (fun o => o.contents.length)).sum := by
  induction ol generalizing acc with
  | nil => simp
  | cons o os ih =>
    simp [List.foldl_cons, ih, aggOpStep, foldl_aggContent_operationsNum, add_assoc]

theorem foldl_aggOuter_volumeI (L : List (List Operation)) (acc : AggAcc) :
    (L.foldl (fun acc ol => ol.foldl aggOpStep acc) acc).volumeI =
      acc.volumeI + (L.map (fun ol =>
        (ol.map (fun o => (o.contents.map volumeTermOf).sum)).sum)).sum := by
  induction L generalizing acc with
  | nil => simp
  | cons ol rest ih =>
    simp [List.foldl_cons, ih, foldl_aggOp_volumeI, add_assoc]

theorem foldl_aggOuter_feesI (L : List (List Operation)) (acc : AggAcc) :
    (L.foldl (fun acc ol => ol.foldl aggOpStep acc) acc).feesI =
      acc.feesI + (L.map (fun ol =>
        (ol.map (fun o => (o.contents.map feeTermOf).sum)).sum)).sum := by
  induction L generalizing acc with
  | nil => simp
  | cons ol rest ih =>
    simp [List.foldl_cons, ih, foldl_aggOp_feesI, add_assoc]

theorem foldl_aggOuter_operationsNum (L : List (List Operation)) (acc : AggAcc) :
    (L.foldl (fun acc ol => ol.foldl aggOpStep acc) acc).operationsNum =
      acc.operationsNum + (L.map (fun ol =>
        (ol.map (fun o => o.contents.length)).sum)).sum := by
  induction L generalizing acc with
  | nil => simp
  | cons ol rest ih =>
    simp [List.foldl_cons, ih, foldl_aggOp_operationsNum, add_assoc]

theorem contentPairs_map_sum (f : OperationElem → Int) (L : List (List Operation)) :
    (((L.map (fun ol =>
        (ol.map (fun o => o.contents.map (fun c => (o, c)))).flatten)).flatten).map
          (fun p => f p.2)).sum =
      (L.map (fun ol => (ol.map (fun o => (o.contents.map f).sum)).sum)).sum := by
  induction L with
  | nil => rfl
  | cons ol rest ih =>
    simp only [List.map_cons, List.flatten_cons, List.map_append, List.sum_append, ih]
    congr 1
    induction ol with
    | nil => rfl
    | cons o os iho =>
      simp only [List.map_cons, List.flatten_cons, List.map_append, List.sum_append,
        iho]
      congr 1
      rw [List.map_map]
      rfl

theorem contentPairs_length (L : List (List Operation)) :
    ((L.map (fun ol =>
        (ol.map (fun o => o.contents.map (fun c => (o, c)))).flatten)).flatten).length =
      (L.map (fun ol => (ol.map (fun o => o.contents.length)).sum)).sum := by
  induction L with
  | nil => rfl
  | cons ol rest ih =>
    simp only [List.map_cons, List.flatten_cons, List.length_append, ih]
    congr 1
    induction ol with
    | nil => rfl
    | cons o os iho =>
      simp only [List.map_cons, List.flatten_cons, List.length_append, iho]
      congr 1
      simp


theorem summaryContentStep_rewardsI (acc : SummaryAcc) (c : OperationElem) :
    (summaryContentStep acc c).rewardsI = acc.rewardsI + endorsementRewardsOf c := by
  cases c with
  | endorsement meta =>
    simp [summaryContentStep, endorsementRewardsOf, foldl_add_sum]
  | _ => simp [summaryContentStep, endorsementRewardsOf]

theorem foldl_summaryContent_rewardsI (cs : List OperationElem) (acc : SummaryAcc) :
    (cs.foldl summaryContentStep acc).rewardsI =
      acc.rewardsI + (cs.map endorsementRewardsOf).sum := by
  induction cs generalizing acc with
  | nil => simp
  | cons c t ih =>
    simp [List.foldl_cons, ih, summaryContentStep_rewardsI, add_assoc]

theorem foldl_summaryOp_rewardsI (ol : List Operation) (acc : SummaryAcc) :
    (ol.foldl summaryOpStep acc).rewardsI =
      acc.rewardsI +
        (ol.map (fun o => (o.contents.map endorsementRewardsOf).sum)).sum := by
  induction ol generalizing acc with
  | nil => simp
  | cons o os ih =>
    simp [List.foldl_cons, ih, summaryOpStep, foldl_summaryContent_rewardsI,
      add_assoc]

theorem foldl_summaryOuter_rewardsI (L : List (List Operation)) (acc : SummaryAcc) :
    (L.foldl (fun acc ol => ol.foldl summaryOpStep acc) acc).rewardsI =
      acc.rewardsI + (L.map (fun ol =>
        (ol.map (fun o => (o.contents.map endorsementRewardsOf).sum)).sum)).sum := by
  induction L generalizing acc with
  | nil => simp
  | cons ol rest ih =>
    simp [List.foldl_cons, ih, foldl_summaryOp_rewardsI, add_assoc]

/-- C3: the block aggregate counts every content element across all
operation groups; its fees total sums the fee of every fee-bearing
element and its volume total sums every transaction amount; the summary
rewards total sums the rewards-category balance-update changes on the
block metadata and inside endorsement metadata; each money total is the
scaled-once-after-summation value (on the example block, one transaction
of 1000000 base units with fee 1000 gives volume 1 and fees 1/1000). -/
theorem block_aggregate_sums :
    (∀ b : Block,
      (getBlockInfo b).operationsNum = (blockContentPairs b).length ∧
      (getBlockInfo b).fees =
        microScale (((blockContentPairs b).map (fun p => feeTermOf p.2)).sum) ∧
      (getBlockInfo b).volume =
        microScale (((blockContentPairs b).map (fun p => volumeTermOf p.2)).sum) ∧
      (blocksSummaryData b).rewards = microScale (blockRewardsTotal b)) ∧
    (getBlockInfo demoBlock).volume = 1 ∧
    (getBlockInfo demoBlock).fees = 1 / 1000 ∧
    (blocksSummaryData demoBlock).rewards = microScale 16000512 := by
  have hmain : ∀ b : Block,
      (getBlockInfo b).operationsNum = (blockContentPairs b).length ∧
      (getBlockInfo b).fees =
        microScale (((blockContentPairs b).map (fun p => feeTermOf p.2)).sum) ∧
      (getBlockInfo b).volume =
        microScale (((blockContentPairs b).map (fun p => volumeTermOf p.2)).sum) ∧
      (blocksSummaryData b).rewards = microScale (blockRewardsTotal b) := by
    intro b
    refine ⟨?_, ?_, ?_, ?_⟩
    · simp only [getBlockInfo, blockContentPairs]
      rw [foldl_aggOuter_operationsNum, contentPairs_length]
      simp
    · simp only [getBlockInfo, blockContentPairs]
      rw [foldl_aggOuter_feesI, contentPairs_map_sum]
      simp
    · simp only [getBlockInfo, blockContentPairs]
      rw [foldl_aggOuter_volumeI, contentPairs_map_sum]
      simp
    · simp only [blocksSummaryData, blockRewardsTotal, blockContentPairs]
      rw [foldl_summaryOuter_rewardsI, contentPairs_map_sum, foldl_add_sum]
      simp
  refine ⟨hmain, ?_, ?_, ?_⟩
  · rw [(hmain demoBlock).2.2.1]
    have hsum : ((blockContentPairs demoBlock).map
        (fun p => volumeTermOf p.2)).sum = 1000000 := by decide
    rw [hsum]
    norm_num [microScale]
  · rw [(hmain demoBlock).2.1]
    have hsum : ((blockContentPairs demoBlock).map
        (fun p => feeTermOf p.2)).sum = 1000 := by decide
    rw [hsum]
    norm_num [microScale]
  · rw [(hmain demoBlock).2.2.2]
    have hsum : blockRewardsTotal demoBlock = 16000512 := by decide
    rw [hsum]


theorem validateKindsLoop_unknown (ks : List String)
    (h : ∃ k ∈ ks, List.lookup k knownKinds = none) :
    validateKindsLoop ks = Except.error "Unknown operation kind: " := by
  induction ks with
  | nil =>
    obtain ⟨k, hk, _⟩ := h
    exact absurd hk (List.not_mem_nil k)
  | cons kind rest ih =>
    obtain ⟨k, hk, hnone⟩ := h
    match hl : List.lookup kind knownKinds with
    | none => simp [validateKindsLoop, hl]
    | some v =>
      have hne : k ≠ kind := by
        intro he
        rw [he, hl] at hnone
        cases hnone
      have hkr : k ∈ rest := by
        rcases List.mem_cons.mp hk with h1 | h1
        · exact absurd h1 hne
        · exact h1
      have := ih ⟨k, hkr, hnone⟩
      simp only [validateKindsLoop, hl, this]
      rfl

/-- C7: a kind-filter list containing an alias outside the known-kinds
taxonomy makes the operations command fail with the unknown-operation-
kind configuration error and an empty node-call trace, so no block is
fetched for any argument; an empty alias list validates to a nil
allow-set, imposing no restriction. -/
theorem unknown_kind_fails_before_fetch :
    (∀ (svc : NodeService) (opKinds : List String) (args : List (List Char)),
        (∃ k ∈ opKinds, List.lookup k knownKinds = none) →
        operationsRun svc opKinds args =
          (Except.error "Unknown operation kind: ", [])) ∧
    validateKinds [] = Except.ok none := by
  refine ⟨?_, rfl⟩
  intro svc opKinds args h
  obtain ⟨k, hk, hnone⟩ := h
  have hne : opKinds ≠ [] := by
    intro he
    rw [he] at hk
    exact absurd hk (List.not_mem_nil k)
  have hval : validateKinds opKinds = Except.error "Unknown operation kind: " := by
    match opKinds, hne with
    | kind :: rest, _ =>
      have := validateKindsLoop_unknown (kind :: rest) ⟨k, hk, hnone⟩
      simp only [validateKinds, this]
      rfl
  simp [operationsRun, hval]

theorem unknown_kind_fails_before_fetch_witness :
    operationsRun demoSvc ["xyz"] [['1', '2']] =
      (Except.error "Unknown operation kind: ", []) := by
  exact unknown_kind_fails_before_fetch.1 demoSvc ["xyz"] [['1', '2']]
    ⟨"xyz", by simp, by rfl⟩

end Tez
